import Mathlib

/-!
# struct_pack endian wrapper: byte-exact model of `endian_wrapper.hpp`

A shallow embedding of `include/ylt/struct_pack/endian_wrapper.hpp`.

* Host memory is a list of bytes; an object is the list of its bytes in
  address order.  A typed load or store of an unsigned integer goes through
  `load` and `store`, which depend on the host byte order.
* A sink (`writer_t`) is the list of bytes appended so far.
* A source (`reader_t`) is the list of bytes not yet consumed.
* Template parameters (`block_size`, `T`, the reader kind) are ordinary
  arguments; `if constexpr` is `if`.
-/

namespace struct_pack

/-- One octet of memory or of the wire. -/
abbrev Byte := Fin 256

/-- The execution platform: everything the header takes from the compiler and
the machine rather than from its arguments.

* `little` is `is_system_little_endian`;
* `size_t_bytes` is `sizeof(std::size_t)`;
* `sizeof_dyn` is `sizeof` of a string or dynamic container object
  (the handle, not its elements);
* `dyn_rep` gives the bytes of such a handle, which the element values do not
  determine;
* `beyond` gives the bytes found in memory after the end of an object, which
  the program does not determine. -/
structure Host where
  little : Bool
  size_t_bytes : Nat
  sizeof_dyn : Nat
  dyn_rep : Nat → Byte
  beyond : Nat → Byte

/-- The constant `UINT64_MAX`. -/
def UINT64_MAX : Nat := 2 ^ 64 - 1

/-- The constant `SIZE_MAX` of the host. -/
def SIZE_MAX (h : Host) : Nat := 2 ^ (8 * h.size_t_bytes) - 1

/-- The constant `PTRDIFF_MAX` of the host (`ptrdiff_t` is as wide as `size_t`). -/
def PTRDIFF_MAX (h : Host) : Nat := 2 ^ (8 * h.size_t_bytes - 1) - 1

/-- Conversion of an integer to `std::size_t`. -/
def to_size_t (h : Host) (x : Nat) : Nat := x % 2 ^ (8 * h.size_t_bytes)

/-- Conversion of an integer to `std::uint64_t`. -/
def to_uint64 (x : Nat) : Nat := x % 2 ^ 64

/-- The variable template `is_little_endian_copyable<block_size>`. -/
def is_little_endian_copyable (h : Host) (block_size : Nat) : Bool :=
  h.little || block_size == 1

/-! ## Memory -/

/-- The byte at offset `i` from the start of object `obj`; past the end of the
object it is whatever memory holds there. -/
def mem_at (h : Host) (obj : List Byte) (i : Nat) : Byte :=
  obj.getD i (h.beyond (i - obj.length))

/-- The `n` bytes read from address `obj + off`. -/
def mem_read (h : Host) (obj : List Byte) (off n : Nat) : List Byte :=
  (List.range n).map fun i => mem_at h obj (off + i)

/-- The object `obj` after `bytes` have been stored at offset `off` (inside it). -/
def mem_write (obj : List Byte) (off : Nat) (bytes : List Byte) : List Byte :=
  obj.take off ++ bytes ++ obj.drop (off + bytes.length)

/-! ## Unsigned integers in memory -/

/-- The low octet of a number. -/
def byte (x : Nat) : Byte := ⟨x % 256, Nat.mod_lt _ (by decide)⟩

/-- The `w` little-endian bytes of `x`, least significant first. -/
def toLE : Nat → Nat → List Byte
  | 0, _ => []
  | w + 1, x => byte x :: toLE w (x / 256)

/-- The number whose little-endian bytes are given. -/
def fromLE : List Byte → Nat
  | [] => 0
  | b :: bs => b.val + 256 * fromLE bs

/-- A typed load `*(uintN_t*)p` of the bytes at `p`, in host byte order. -/
def load (h : Host) (bytes : List Byte) : Nat :=
  if h.little then fromLE bytes else fromLE bytes.reverse

/-- The object representation of the `w`-byte unsigned integer `x`, in host
byte order. -/
def store (h : Host) (w : Nat) (x : Nat) : List Byte :=
  if h.little then toLE w x else (toLE w x).reverse

/-- The function `swap_endian<T>` with `sizeof(T) = size`: the union holds the
object representation of `u`, `dest.u8[k] = source.u8[size - k - 1]`, and the
result is `dest.u`. -/
def swap_endian (h : Host) (size : Nat) (u : Nat) : Nat :=
  load h (store h size u).reverse

/-- The function `bswap16`; the compiler intrinsics compute what the portable
branch `swap_endian(raw)` computes. -/
def bswap16 (h : Host) (raw : Nat) : Nat := swap_endian h 2 raw

/-- The function `bswap32`. -/
def bswap32 (h : Host) (raw : Nat) : Nat := swap_endian h 4 raw

/-- The function `bswap64`. -/
def bswap64 (h : Host) (raw : Nat) : Nat := swap_endian h 8 raw

/-! ## Block writer -/

/-- The function `write_wrapper<block_size>(writer, data)`.  Every
`writer.write(p, n)` appends the `n` bytes at `p`.  In the 16-byte branch both
calls pass `block_size` as the length although `tmp1` and `tmp2` are 8-byte
objects.  A `block_size` outside 1, 2, 4, 8, 16 does not compile; the model
leaves the sink alone there. -/
def write_wrapper (h : Host) (block_size : Nat) (writer : List Byte)
    (data : List Byte) : List Byte :=
  if h.little || block_size == 1 then
    writer ++ mem_read h data 0 block_size
  else if block_size == 2 then
    let tmp := bswap16 h (load h (mem_read h data 0 2))
    writer ++ mem_read h (store h 2 tmp) 0 block_size
  else if block_size == 4 then
    let tmp := bswap32 h (load h (mem_read h data 0 4))
    writer ++ mem_read h (store h 4 tmp) 0 block_size
  else if block_size == 8 then
    let tmp := bswap64 h (load h (mem_read h data 0 8))
    writer ++ mem_read h (store h 8 tmp) 0 block_size
  else if block_size == 16 then
    let tmp1 := bswap64 h (load h (mem_read h data 0 8))
    let tmp2 := bswap64 h (load h (mem_read h data 8 8))
    let writer1 := writer ++ mem_read h (store h 8 tmp2) 0 block_size
    writer1 ++ mem_read h (store h 8 tmp1) 0 block_size
  else
    writer

/-- The function `write_bytes_array(writer, data, length)`.  The branch
`unreachable()` performs no sink operation. -/
def write_bytes_array (h : Host) (writer : List Byte) (data : List Byte)
    (length : Nat) : List Byte :=
  if length ≥ PTRDIFF_MAX h then
    writer
  else
    writer ++ mem_read h data 0 length

/-- The function `low_bytes_write_wrapper<block_size>(writer, elem)`, with
`sizeof(T)` the size of the object `elem`. -/
def low_bytes_write_wrapper (h : Host) (block_size : Nat) (writer : List Byte)
    (elem : List Byte) : List Byte :=
  if h.little then
    writer ++ mem_read h elem 0 block_size
  else if block_size == elem.length then
    write_wrapper h block_size writer elem
  else
    let off := elem.length - block_size
    if block_size == 1 then
      writer ++ mem_read h elem off block_size
    else if block_size == 2 then
      let tmp := bswap16 h (load h (mem_read h elem off 2))
      writer ++ mem_read h (store h 2 tmp) 0 block_size
    else if block_size == 4 then
      let tmp := bswap32 h (load h (mem_read h elem off 4))
      writer ++ mem_read h (store h 4 tmp) 0 block_size
    else
      writer

/-! ## Source -/

/-- A byte source: the bytes not yet consumed, and whether its type offers
`check` (the concept `checkable_reader_t`). -/
structure Reader where
  rest : List Byte
  has_check : Bool
  deriving DecidableEq, Repr

/-- Modelled from the spec: the source capability `read(bytes, length)` of the
reader type, which the header only calls.  It is true iff exactly `length`
bytes were copied; then they are consumed, otherwise nothing is consumed and
nothing is copied. -/
def Reader.read (r : Reader) (length : Nat) : Option (List Byte × Reader) :=
  if length ≤ r.rest.length then
    some (r.rest.take length, ⟨r.rest.drop length, r.has_check⟩)
  else
    none

/-- Modelled from the spec: the source capability `check(length)`, true iff
`length` bytes are currently available; it consumes nothing. -/
def Reader.check (r : Reader) (length : Nat) : Bool :=
  decide (length ≤ r.rest.length)

/-! ## Block reader -/

/-- The function `read_wrapper<block_size>(reader, data)`: the result, the
source afterwards and the object at `data` afterwards.  In the 16-byte branch
`&tmp + 8` is eight objects of type `std::array<char, 16>` past `tmp`, that
is 128 bytes. -/
def read_wrapper (h : Host) (block_size : Nat) (reader : Reader)
    (data : List Byte) : Bool × Reader × List Byte :=
  if h.little || block_size == 1 then
    match reader.read block_size with
    | some (bytes, reader1) => (true, reader1, mem_write data 0 bytes)
    | none => (false, reader, data)
  else
    match reader.read block_size with
    | none => (false, reader, data)
    | some (tmp, reader1) =>
      if block_size == 2 then
        (true, reader1, mem_write data 0 (store h 2 (bswap16 h (load h (mem_read h tmp 0 2)))))
      else if block_size == 4 then
        (true, reader1, mem_write data 0 (store h 4 (bswap32 h (load h (mem_read h tmp 0 4)))))
      else if block_size == 8 then
        (true, reader1, mem_write data 0 (store h 8 (bswap64 h (load h (mem_read h tmp 0 8)))))
      else if block_size == 16 then
        let data1 := mem_write data 8 (store h 8 (bswap64 h (load h (mem_read h tmp 0 8))))
        let data2 :=
          mem_write data1 0 (store h 8 (bswap64 h (load h (mem_read h tmp (8 * 16) 8))))
        (true, reader1, data2)
      else
        (true, reader1, data)

/-- The function `read_bytes_array(reader, data, length)`. -/
def read_bytes_array (reader : Reader) (data : List Byte) (length : Nat) :
    Bool × Reader × List Byte :=
  match reader.read length with
  | some (bytes, reader1) => (true, reader1, mem_write data 0 bytes)
  | none => (false, reader, data)

/-- The function `low_bytes_read_wrapper<block_size>(reader, elem)`, with
`sizeof(T)` the size of the object `elem`. -/
def low_bytes_read_wrapper (h : Host) (block_size : Nat) (reader : Reader)
    (elem : List Byte) : Bool × Reader × List Byte :=
  if h.little then
    match reader.read block_size with
    | some (bytes, reader1) => (true, reader1, mem_write elem 0 bytes)
    | none => (false, reader, elem)
  else if block_size == elem.length then
    read_wrapper h block_size reader elem
  else
    let off := elem.length - block_size
    if block_size > 1 then
      match reader.read block_size with
      | none => (false, reader, elem)
      | some (tmp, reader1) =>
        if block_size == 2 then
          (true, reader1,
            mem_write elem off (store h 2 (bswap16 h (load h (mem_read h tmp 0 2)))))
        else if block_size == 4 then
          (true, reader1,
            mem_write elem off (store h 4 (bswap32 h (load h (mem_read h tmp 0 4)))))
        else
          (true, reader1, elem)
    else
      match reader.read block_size with
      | some (bytes, reader1) => (true, reader1, mem_write elem off bytes)
      | none => (false, reader, elem)

/-! ## Types and values of the typed dispatcher -/

/-- The static type `T` a dispatcher template is instantiated at.

* `fundamental size`: a type with `std::is_fundamental_v<T>` and
  `sizeof(T) = size`;
* `array elem n`: the concept `detail::array`, `n` elements;
* `container continuous elem`: the concepts `detail::string` or
  `detail::container`; `continuous` is `detail::continuous_container<T>`.
  A string is a continuous container of one-byte characters. -/
inductive Ty where
  | fundamental (size : Nat)
  | array (elem : Ty) (n : Nat)
  | container (continuous : Bool) (elem : Ty)
  deriving DecidableEq, Repr

/-- The type `std::string`. -/
@[reducible] def Ty.string : Ty := .container true (.fundamental 1)

/-- The values of a type: a fundamental value is its object representation
(its bytes in host order), an array or container is the list of its elements. -/
@[reducible] def Val : Ty → Type
  | .fundamental _ => List Byte
  | .array e _ => List (Val e)
  | .container _ e => List (Val e)

/-- The trait test `std::is_fundamental_v<decltype(t[0])>` of the array and
container branches, for the element type `e`.  The expression `t[0]` is an
lvalue, so `decltype(t[0])` is a reference type, and a reference type is not a
fundamental type: the test is false whatever the element type is. -/
def is_fundamental_v_decltype_elem (_e : Ty) : Bool := false

/-- The operator `sizeof`.  An array has no padding (and an array of no
elements is taken to have size 0); a container object is a handle of
`sizeof_dyn` bytes. -/
def sizeof (h : Host) : Ty → Nat
  | .fundamental size => size
  | .array e n => n * sizeof h e
  | .container _ _ => h.sizeof_dyn

/-- The object representation of a value. -/
def object_rep (h : Host) : (T : Ty) → Val T → List Byte
  | .fundamental _, t => t
  | .array e _, t => (List.map (object_rep h e) t).flatten
  | .container _ _, _ => (List.range h.sizeof_dyn).map h.dyn_rep

/-- The element storage `t.data()` of an array or continuous container: the
object representations of the elements, one after the other. -/
def storage (h : Host) (e : Ty) (t : List (Val e)) : List Byte :=
  (List.map (object_rep h e) t).flatten

/-- The value whose object representation is given.  (Only trivially copyable
types are ever filled from raw bytes; a container handle yields no elements.) -/
def object_of_rep (h : Host) : (T : Ty) → List Byte → Val T
  | .fundamental _, bytes => bytes
  | .array e n, bytes =>
    (List.range n).map fun i =>
      object_of_rep h e ((bytes.drop (i * sizeof h e)).take (sizeof h e))
  | .container _ _, _ => []

/-- The `n` elements held by an element storage. -/
def elems_of_storage (h : Host) (e : Ty) (n : Nat) (bytes : List Byte) : List (Val e) :=
  (List.range n).map fun i =>
    object_of_rep h e ((bytes.drop (i * sizeof h e)).take (sizeof h e))

/-- A value-initialised object (`T{}`): zero bytes, empty containers. -/
def value_init : (T : Ty) → Val T
  | .fundamental size => List.replicate size (0 : Byte)
  | .array e n => List.replicate n (value_init e)
  | .container _ _ => []

/-- The results of a decode.  `ok` is `struct_pack::errc{}`. -/
inductive errc where
  | ok
  | no_buffer_space
  | invalid_buffer
  deriving DecidableEq, Repr

/-- Modelled from the spec: the conversion applied where `read` returns the
`bool` of `read_bytes_array` as a `struct_pack::errc` (the declaration of
`errc` is not part of the sources).  The bulk read succeeds when the source
supplied the bytes and reports insufficient data otherwise, as the
pointer overload of `read` spells out. -/
def errc_of_bool (res : Bool) : errc :=
  if res then errc.ok else errc.no_buffer_space

/-- Modelled from the spec: the helper `writer_bytes_array`, which `write`
calls and the sources do not define.  It is the bulk pass-through of the
write side: the bytes are forwarded to the sink through `write_bytes_array`. -/
def writer_bytes_array (h : Host) (writer : List Byte) (data : List Byte)
    (length : Nat) : List Byte :=
  write_bytes_array h writer data length

/-- Modelled from the spec: the helper `detail::resize` (declared in a header
that is not part of the sources): the container gets exactly `n` elements,
the first ones kept, new ones value-initialised. -/
def resize (e : Ty) (t : List (Val e)) (n : Nat) : List (Val e) :=
  t.take n ++ List.replicate (n - t.length) (value_init e)

/-! ## Typed dispatcher -/

/-- The function `write(writer, t)`.  The bulk branch of an array is guarded by
the trait test `std::is_fundamental_v<decltype(t[0])>`, which is false, so an
array is always written element by element; the bulk branch of a container
has no such guard.  The source range written `(const char*)&t.data()` is read
as the element storage of `t`.  The length of a container goes out through
`write_wrapper<sizeof(std::size_t)>`. -/
def write (h : Host) : (T : Ty) → List Byte → Val T → List Byte
  | .fundamental size, writer, t => write_wrapper h size writer t
  | .array e n, writer, t =>
    if is_little_endian_copyable h (sizeof h e) && is_fundamental_v_decltype_elem e then
      writer_bytes_array h writer (storage h e t) (sizeof h (.array e n))
    else
      List.foldl (fun w x => write h e w x) writer t
  | .container c e, writer, t =>
    let len := to_uint64 (List.length t)
    let writer1 := write_wrapper h h.size_t_bytes writer (store h 8 len)
    if c && is_little_endian_copyable h (sizeof h e) then
      writer_bytes_array h writer1 (storage h e t) (to_size_t h (to_uint64 (len * sizeof h e)))
    else
      List.foldl (fun w x => write h e w x) writer1 t

/-- The function `write(writer, t, length)` on a buffer of `length` objects of
a fundamental type of size `size`; `t` is the memory at the pointer. -/
def write_ptr (h : Host) (size : Nat) (writer : List Byte) (t : List Byte)
    (length : Nat) : List Byte :=
  if is_little_endian_copyable h size then
    write_bytes_array h writer t (to_size_t h (size * length))
  else
    (List.range length).foldl
      (fun w i => write h (.fundamental size) w (mem_read h t (i * size) size)) writer

/-- The expression `write(e)` that `get_write_size` adds up on the
element-wise path of a container: `write` takes a sink and returns nothing, so
the expression denotes no size. -/
def write_of_elem_as_size : Option Nat := none

/-- The function `get_write_size(t)`; `none` where the source computes no
size.  Sums are `std::size_t` sums. -/
def get_write_size (h : Host) : (T : Ty) → Val T → Option Nat
  | .fundamental size, _ => some size
  | .array e n, t =>
    if is_fundamental_v_decltype_elem e then
      some (sizeof h (.array e n))
    else
      List.foldlM
        (fun ret x => (get_write_size h e x).map fun s => to_size_t h (ret + s)) 0 t
  | .container c e, t =>
    let ret := 8
    if c && is_little_endian_copyable h (sizeof h e) then
      some (to_size_t h (ret + to_size_t h (List.length t * sizeof h e)))
    else
      List.foldlM
        (fun ret _ => write_of_elem_as_size.map fun s => to_size_t h (ret + s)) ret t

/-- The function `get_write_size(t, length)` of the pointer overload. -/
def get_write_size_ptr (h : Host) (size : Nat) (length : Nat) : Nat :=
  to_size_t h (size * length)

/-- The fundamental branch of `read`: one block through `read_wrapper`. -/
def read_fundamental (h : Host) (size : Nat) (reader : Reader) (t : List Byte) :
    errc × Reader × List Byte :=
  match read_wrapper h size reader t with
  | (false, reader1, t1) => (errc.no_buffer_space, reader1, t1)
  | (true, reader1, t1) => (errc.ok, reader1, t1)

/-- The loop `for (auto& e : t) { ec = read(reader, e); if (ec != errc{}) return ec; }`
of the array branch of `read`, over the element reader `rd`. -/
def read_each {α : Type} (rd : Reader → α → errc × Reader × α) :
    Reader → List α → errc × Reader × List α
  | reader, [] => (errc.ok, reader, [])
  | reader, x :: xs =>
    match rd reader x with
    | (ec, reader1, x1) =>
      if ec ≠ errc.ok then
        (ec, reader1, x1 :: xs)
      else
        match read_each rd reader1 xs with
        | (ec2, reader2, xs1) => (ec2, reader2, x1 :: xs1)

/-- The loop `for (i = 0; i < sz; ++i) { t.emplace_back(); ec = read(reader, t.back()); ... }`
of the container branch of `read`: `n` iterations are still to run, `fresh` is
the element `emplace_back()` appends.  (The counter `i` is a `std::size_t`
compared with the 64-bit `sz`; the loop runs `sz` times whenever
`sz ≤ SIZE_MAX`.) -/
def read_loop {α : Type} (rd : Reader → α → errc × Reader × α) (fresh : α) :
    Nat → Reader → List α → errc × Reader × List α
  | 0, reader, t => (errc.ok, reader, t)
  | n + 1, reader, t =>
    match rd reader fresh with
    | (ec, reader1, x1) =>
      if ec ≠ errc.ok then
        (ec, reader1, t ++ [x1])
      else
        read_loop rd fresh n reader1 (t ++ [x1])

/-- The function `read(reader, t)`: the result, the source afterwards and the
destination afterwards.  Both bulk branches are guarded by the trait test
`std::is_fundamental_v<decltype(t[0])>`, which is false, so the array branch
always runs its element loop and the container branch always runs its
`emplace_back` loop.  The target `(char*)&t.data()` of a bulk read is read as
the element storage of `t`.  The local `sz` is indeterminate until `read`
fills it. -/
def read (h : Host) : (T : Ty) → Reader → Val T → errc × Reader × Val T
  | .fundamental size, reader, t => read_fundamental h size reader t
  | .array e n, reader, t =>
    if is_fundamental_v_decltype_elem e && is_little_endian_copyable h (sizeof h e) then
      match read_bytes_array reader (storage h e t) (sizeof h (.array e n)) with
      | (res, reader1, bytes) =>
        (errc_of_bool res, reader1, elems_of_storage h e (List.length t) bytes)
    else
      read_each (fun r x => read h e r x) reader t
  | .container c e, reader, t =>
    match read_fundamental h 8 reader (List.replicate 8 (0 : Byte)) with
    | (ec, reader1, sz_bytes) =>
      if ec ≠ errc.ok then
        (ec, reader1, t)
      else
        let sz := load h sz_bytes
        if c && is_fundamental_v_decltype_elem e
            && is_little_endian_copyable h (sizeof h e) && reader.has_check then
          if sz > UINT64_MAX / sizeof h e || sz > SIZE_MAX h then
            (errc.invalid_buffer, reader1, t)
          else
            let mem_size := to_size_t h (to_uint64 (sz * sizeof h e))
            if !reader1.check mem_size then
              (errc.no_buffer_space, reader1, t)
            else
              let t1 := resize e t mem_size
              match read_bytes_array reader1 (storage h e t1) mem_size with
              | (res, reader2, bytes) =>
                (errc_of_bool res, reader2, elems_of_storage h e (List.length t1) bytes)
        else
          read_loop (fun r x => read h e r x) (value_init e) sz reader1 t

/-- The function `read(reader, t, length)` on a buffer of `length` objects of
a fundamental type of size `size`; `t` is the memory at the pointer. -/
def read_ptr (h : Host) (size : Nat) (reader : Reader) (t : List Byte)
    (length : Nat) : errc × Reader × List Byte :=
  if is_little_endian_copyable h size then
    match read_bytes_array reader t (to_size_t h (size * length)) with
    | (false, reader1, t1) => (errc.no_buffer_space, reader1, t1)
    | (true, reader1, t1) => (errc.ok, reader1, t1)
  else
    (List.range length).foldl
      (fun (st : errc × Reader × List Byte) i =>
        if st.1 ≠ errc.ok then st
        else
          match read_fundamental h size st.2.1 (mem_read h st.2.2 (i * size) size) with
          | (ec, reader1, x1) => (ec, reader1, mem_write st.2.2 (i * size) x1))
      (errc.ok, reader, t)

/-! ## Reference behaviour of the pointer overload -/

/-- The sink after `write(writer, t[i])` has been called for `i = 0 .. n - 1`
in order, `t[i]` being the object of `size` bytes at offset `i * size` of the
buffer `t`: what the pointer overload of `write` is compared with. -/
def write_elementwise (h : Host) (size : Nat) (writer : List Byte) (t : List Byte)
    (n : Nat) : List Byte :=
  (List.range n).foldl
    (fun w i => write h (.fundamental size) w ((t.drop (i * size)).take size)) writer

/-! ## Reference behaviour of a failed element-wise decode -/

/-- The elements a run of element decodes leaves behind: `n` elements are
expected, each is decoded from the source into a fresh object `fresh`, one
after the other, and the run stops at the first decode that fails.  The list
holds the decoded elements in wire order and, when a decode failed, ends with
the object that decode was filling.  The result and the source afterwards come
with it. -/
def decode_elements {α : Type} (rd : Reader → α → errc × Reader × α) (fresh : α) :
    Nat → Reader → errc × Reader × List α
  | 0, reader => (errc.ok, reader, [])
  | n + 1, reader =>
    match rd reader fresh with
    | (ec, reader1, x1) =>
      if ec ≠ errc.ok then
        (ec, reader1, [x1])
      else
        match decode_elements rd fresh n reader1 with
        | (ec2, reader2, xs) => (ec2, reader2, x1 :: xs)

/-- What the element decodes of a container `read` leave behind, for a source
`r` that holds at least the 8-byte count: `decode_elements` for the count
decoded little-endian from the first 8 bytes, run on the source after them,
each element read by `read` into a value-initialised object. -/
def decode_after_count (h : Host) (e : Ty) (r : Reader) : errc × Reader × List (Val e) :=
  decode_elements (fun r x => read h e r x) (value_init e) (fromLE (r.rest.take 8))
    ⟨r.rest.drop 8, r.has_check⟩

/-! ## Concrete platforms -/

/-- A little-endian host with an 8-byte `size_t` and 32-byte container handles. -/
def host_le64 : Host := ⟨true, 8, 32, fun _ => 0, fun _ => 0xAA⟩

/-- A big-endian host with an 8-byte `size_t` and 32-byte container handles. -/
def host_be64 : Host := ⟨false, 8, 32, fun _ => 0, fun _ => 0xAA⟩

/-- A little-endian host with a 4-byte `size_t` and 12-byte container handles. -/
def host_le32 : Host := ⟨true, 4, 12, fun _ => 0, fun _ => 0xAA⟩

/-- A big-endian host with a 4-byte `size_t` and 12-byte container handles. -/
def host_be32 : Host := ⟨false, 4, 12, fun _ => 0, fun _ => 0xAA⟩

/-! ## Concrete values -/

/-- The string `"hello"`. -/
def hello : Val Ty.string := [[104], [101], [108], [108], [111]]

/-- A 16-byte fundamental value whose byte at address `i` is `i`. -/
def v16 : Val (.fundamental 16) := [0, 1, 2, 3, 4, 5, 6, 7, 8, 9, 10, 11, 12, 13, 14, 15]

/-- The vector of 32-bit integers `{1}` on a little-endian host. -/
def vec_one : Val (.container true (.fundamental 4)) := [[1, 0, 0, 0]]

/-- The vector of 32-bit integers `{0, 7}` on a big-endian host. -/
def vec_zero_seven : Val (.container true (.fundamental 4)) := [[0, 0, 0, 0], [0, 0, 0, 7]]

/-- The vector of strings `{"a"}`. -/
def vec_a : Val (.container true Ty.string) := [[[97]]]

/-! # Theorems -/

/-! ## Memory lemmas -/

theorem mem_at_of_lt (h : Host) (obj : List Byte) (i : Nat) (hi : i < obj.length) :
    mem_at h obj i = obj.get ⟨i, hi⟩ := by
  simp [mem_at, List.getD_eq_getElem?_getD, List.getElem?_eq_getElem hi]

theorem length_mem_read (h : Host) (obj : List Byte) (off n : Nat) :
    (mem_read h obj off n).length = n := by
  simp [mem_read]

theorem mem_read_of_le (h : Host) (obj : List Byte) (off n : Nat)
    (hb : off + n ≤ obj.length) : mem_read h obj off n = (obj.drop off).take n := by
  apply List.ext_getElem
  · simp [mem_read]; omega
  · intro i h1 h2
    simp only [mem_read, List.length_map, List.length_range] at h1
    simp [mem_read, mem_at, List.getD_eq_getElem?_getD]
    rw [List.getElem?_eq_getElem (by omega)]
    simp

theorem mem_read_all (h : Host) (obj : List Byte) (n : Nat) (hn : obj.length = n) :
    mem_read h obj 0 n = obj := by
  rw [mem_read_of_le h obj 0 n (by omega)]
  simp [← hn]

theorem mem_write_all (obj bytes : List Byte) (hn : bytes.length = obj.length) :
    mem_write obj 0 bytes = bytes := by
  simp [mem_write, hn]

/-! ## Integer lemmas -/

theorem length_toLE (w x : Nat) : (toLE w x).length = w := by
  induction w generalizing x with
  | zero => rfl
  | succ w ih => simp [toLE, ih]

theorem toLE_fromLE (bs : List Byte) : toLE bs.length (fromLE bs) = bs := by
  induction bs with
  | nil => rfl
  | cons b bs ih =>
    have hb : b.val < 256 := b.isLt
    have h1 : byte (b.val + 256 * fromLE bs) = b := by
      apply Fin.ext
      simp only [byte]
      omega
    have h2 : (b.val + 256 * fromLE bs) / 256 = fromLE bs := by omega
    simp [toLE, fromLE, h1, h2, ih]

theorem fromLE_toLE (w x : Nat) : fromLE (toLE w x) = x % 256 ^ w := by
  induction w generalizing x with
  | zero => simp [toLE, fromLE, Nat.mod_one]
  | succ w ih =>
    simp only [toLE, fromLE, ih, byte]
    rw [pow_succ, Nat.mul_comm (256 ^ w) 256, Nat.mod_mul]

theorem getElem_toLE (w x i : Nat) (hi : i < (toLE w x).length) :
    ((toLE w x).get ⟨i, hi⟩).val = x / 256 ^ i % 256 := by
  induction w generalizing x i with
  | zero => simp [toLE] at hi
  | succ w ih =>
    cases i with
    | zero => simp [toLE, byte]
    | succ i =>
      simp only [toLE, List.get_eq_getElem, List.getElem_cons_succ]
      have := ih (x / 256) i (by simpa [toLE] using hi)
      simp only [List.get_eq_getElem] at this
      rw [this, Nat.div_div_eq_div_mul, pow_succ, Nat.mul_comm]

theorem length_store (h : Host) (w x : Nat) : (store h w x).length = w := by
  unfold store; split <;> simp [length_toLE]

theorem store_load (h : Host) (bs : List Byte) (w : Nat) (hw : bs.length = w) :
    store h w (load h bs) = bs := by
  subst hw
  unfold store load
  split
  · exact toLE_fromLE bs
  · have := toLE_fromLE bs.reverse
    rw [List.length_reverse] at this
    rw [this, List.reverse_reverse]

theorem store_swap_endian (h : Host) (w u : Nat) :
    store h w (swap_endian h w u) = (store h w u).reverse := by
  unfold swap_endian
  exact store_load h _ w (by simp [length_store])

theorem store_bswap_load (h : Host) (w : Nat) (bs : List Byte) (hw : bs.length = w) :
    store h w (swap_endian h w (load h bs)) = bs.reverse := by
  rw [store_swap_endian, store_load h bs w hw]

/-! ## Block writer and block reader -/

theorem write_wrapper_copy (h : Host) (w : Nat) (writer data : List Byte)
    (hc : h.little = true ∨ w = 1) (hd : data.length = w) :
    write_wrapper h w writer data = writer ++ data := by
  have : (h.little || w == 1) = true := by
    rcases hc with hc | hc <;> simp [hc]
  simp [write_wrapper, this, mem_read_all h data w hd]

theorem write_wrapper_swap (h : Host) (w : Nat) (writer data : List Byte)
    (hl : h.little = false) (hw : w = 2 ∨ w = 4 ∨ w = 8) (hd : data.length = w) :
    write_wrapper h w writer data = writer ++ data.reverse := by
  rcases hw with hw | hw | hw <;> subst hw <;>
    simp [write_wrapper, hl, bswap16, bswap32, bswap64, mem_read_all h data _ hd,
      store_bswap_load h _ data hd, mem_read_all h data.reverse _ (by simpa using hd)]

theorem Reader.read_append (bytes tail : List Byte) (chk : Bool) (n : Nat)
    (hn : bytes.length = n) :
    Reader.read ⟨bytes ++ tail, chk⟩ n = some (bytes, ⟨tail, chk⟩) := by
  subst hn
  simp [Reader.read]

theorem read_wrapper_copy (h : Host) (w : Nat) (bytes tail out : List Byte) (chk : Bool)
    (hc : h.little = true ∨ w = 1) (hb : bytes.length = w) (ho : out.length = w) :
    read_wrapper h w ⟨bytes ++ tail, chk⟩ out = (true, ⟨tail, chk⟩, bytes) := by
  have : (h.little || w == 1) = true := by
    rcases hc with hc | hc <;> simp [hc]
  simp [read_wrapper, this, Reader.read_append bytes tail chk w hb,
    mem_write_all out bytes (by omega)]

theorem read_wrapper_swap (h : Host) (w : Nat) (bytes tail out : List Byte) (chk : Bool)
    (hl : h.little = false) (hw : w = 2 ∨ w = 4 ∨ w = 8) (hb : bytes.length = w)
    (ho : out.length = w) :
    read_wrapper h w ⟨bytes ++ tail, chk⟩ out = (true, ⟨tail, chk⟩, bytes.reverse) := by
  rcases hw with hw | hw | hw <;> subst hw <;>
    simp [read_wrapper, hl, Reader.read_append bytes tail chk _ hb, bswap16, bswap32, bswap64,
      mem_read_all h bytes _ hb, store_bswap_load h _ bytes hb,
      mem_write_all out bytes.reverse (by simp; omega)]

/-- The wire bytes of one block of width 1, 2, 4 or 8: the object bytes on a
host that may copy, the reversed object bytes otherwise. -/
theorem write_wrapper_wire (h : Host) (w : Nat) (writer data : List Byte)
    (hw : w = 1 ∨ w = 2 ∨ w = 4 ∨ w = 8) (hd : data.length = w) :
    write_wrapper h w writer data
      = writer ++ (if is_little_endian_copyable h w then data else data.reverse) := by
  by_cases hc : h.little = true ∨ w = 1
  · have : is_little_endian_copyable h w = true := by
      rcases hc with hc | hc <;> simp [is_little_endian_copyable, hc]
    rw [write_wrapper_copy h w writer data hc hd, this]; rfl
  · have hl : h.little = false := by
      cases hh : h.little <;> simp_all
    have hw2 : w = 2 ∨ w = 4 ∨ w = 8 := by omega
    have : is_little_endian_copyable h w = false := by
      simp [is_little_endian_copyable, hl]; omega
    rw [write_wrapper_swap h w writer data hl hw2 hd, this]; rfl

theorem read_wrapper_wire (h : Host) (w : Nat) (bytes tail out : List Byte) (chk : Bool)
    (hw : w = 1 ∨ w = 2 ∨ w = 4 ∨ w = 8) (hb : bytes.length = w) (ho : out.length = w) :
    read_wrapper h w ⟨bytes ++ tail, chk⟩ out
      = (true, ⟨tail, chk⟩, if is_little_endian_copyable h w then bytes else bytes.reverse) := by
  by_cases hc : h.little = true ∨ w = 1
  · have : is_little_endian_copyable h w = true := by
      rcases hc with hc | hc <;> simp [is_little_endian_copyable, hc]
    rw [read_wrapper_copy h w bytes tail out chk hc hb ho, this]; rfl
  · have hl : h.little = false := by
      cases hh : h.little <;> simp_all
    have hw2 : w = 2 ∨ w = 4 ∨ w = 8 := by omega
    have : is_little_endian_copyable h w = false := by
      simp [is_little_endian_copyable, hl]; omega
    rw [read_wrapper_swap h w bytes tail out chk hl hw2 hb ho, this]; rfl

/-- C1: for a block width of 1, 2, 4 or 8 bytes and either host byte order,
`read_wrapper` run on a source that starts with the bytes `write_wrapper`
appended for an object returns true, consumes exactly those `w` bytes (what
follows them is what remains) and leaves the object's bytes in `out`. -/
theorem read_wrapper_write_wrapper (h : Host) (w : Nat) (data out tail : List Byte)
    (chk : Bool) (hw : w = 1 ∨ w = 2 ∨ w = 4 ∨ w = 8) (hd : data.length = w)
    (ho : out.length = w) :
    (write_wrapper h w [] data).length = w ∧
    read_wrapper h w ⟨write_wrapper h w [] data ++ tail, chk⟩ out
      = (true, ⟨tail, chk⟩, data) := by
  rw [write_wrapper_wire h w [] data hw hd]
  cases hc : is_little_endian_copyable h w
  · simp only [List.nil_append, Bool.false_eq_true, if_false]
    refine ⟨by simpa using hd, ?_⟩
    rw [read_wrapper_wire h w data.reverse tail out chk hw (by simpa using hd) ho, hc]
    simp
  · simp only [List.nil_append, if_true]
    refine ⟨hd, ?_⟩
    rw [read_wrapper_wire h w data tail out chk hw hd ho, hc]
    simp

/-- Witness of C1: a 4-byte object on the big-endian host, read back into a
zeroed object from a source with one byte to spare. -/
theorem read_wrapper_write_wrapper_witness :
    (write_wrapper host_be64 4 [] [1, 2, 3, 4]).length = 4 ∧
    read_wrapper host_be64 4 ⟨write_wrapper host_be64 4 [] [1, 2, 3, 4] ++ [9], false⟩
        [0, 0, 0, 0]
      = (true, ⟨[9], false⟩, [1, 2, 3, 4]) :=
  read_wrapper_write_wrapper host_be64 4 [1, 2, 3, 4] [0, 0, 0, 0] [9] false
    (by decide) rfl rfl

theorem load_store (h : Host) (w x : Nat) (hx : x < 256 ^ w) :
    load h (store h w x) = x := by
  unfold load store
  split <;> simp [fromLE_toLE, Nat.mod_eq_of_lt hx]

theorem wire_of_store (h : Host) (w x : Nat) (hw : w ≠ 1) :
    (if is_little_endian_copyable h w then store h w x else (store h w x).reverse)
      = toLE w x := by
  cases hl : h.little <;> simp [is_little_endian_copyable, store, hl, hw]

/-- C2: for an unsigned integer `x` of 2, 4 or 8 bytes held in a host object
(in either host byte order), `write` appends exactly `w` bytes, byte `i` of
which is `(x / 256 ^ i) mod 256`: the little-endian bytes of `x`, the same on
both hosts. -/
theorem write_unsigned_little_endian (h : Host) (w x : Nat) (writer : List Byte)
    (hw : w = 2 ∨ w = 4 ∨ w = 8) (hx : x < 256 ^ w) :
    load h (store h w x) = x ∧
    write h (.fundamental w) writer (store h w x) = writer ++ toLE w x ∧
    (toLE w x).length = w ∧
    ∀ i (hi : i < (toLE w x).length), ((toLE w x).get ⟨i, hi⟩).val = x / 256 ^ i % 256 := by
  refine ⟨load_store h w x hx, ?_, length_toLE w x, fun i hi => getElem_toLE w x i hi⟩
  show write_wrapper h w writer (store h w x) = _
  rw [write_wrapper_wire h w writer _ (by omega) (length_store h w x),
    wire_of_store h w x (by omega)]

/-- Witness of C2: the 32-bit integer `0x01020304` on the big-endian host. -/
theorem write_unsigned_little_endian_witness :
    load host_be64 (store host_be64 4 0x01020304) = 0x01020304 ∧
    write host_be64 (.fundamental 4) [] (store host_be64 4 0x01020304)
      = [] ++ toLE 4 0x01020304 ∧
    (toLE 4 0x01020304).length = 4 ∧
    ∀ i (hi : i < (toLE 4 0x01020304).length),
      ((toLE 4 0x01020304).get ⟨i, hi⟩).val = 0x01020304 / 256 ^ i % 256 :=
  write_unsigned_little_endian host_be64 4 0x01020304 [] (by decide) (by decide)

/-! ## Length prefix -/

theorem read_fundamental_wire (h : Host) (w : Nat) (bytes tail out : List Byte) (chk : Bool)
    (hw : w = 1 ∨ w = 2 ∨ w = 4 ∨ w = 8) (hb : bytes.length = w) (ho : out.length = w) :
    read_fundamental h w ⟨bytes ++ tail, chk⟩ out
      = (errc.ok, ⟨tail, chk⟩,
          if is_little_endian_copyable h w then bytes else bytes.reverse) := by
  simp [read_fundamental, read_wrapper_wire h w bytes tail out chk hw hb ho]

theorem load_wire (h : Host) (w : Nat) (bytes : List Byte) (hw : w ≠ 1) :
    load h (if is_little_endian_copyable h w then bytes else bytes.reverse)
      = fromLE bytes := by
  cases hl : h.little <;> simp [is_little_endian_copyable, load, hl, hw]

/-- The wire bytes of one fundamental element. -/
theorem toLE_load (h : Host) (w : Nat) (e : List Byte) (he : e.length = w) :
    toLE w (load h e) = if h.little then e else e.reverse := by
  subst he
  cases hl : h.little
  · have := toLE_fromLE e.reverse
    simp only [List.length_reverse] at this
    simp [load, hl, this]
  · simp [load, hl, toLE_fromLE]

theorem write_fundamental_wire (h : Host) (w : Nat) (writer e : List Byte)
    (hw : w = 1 ∨ w = 2 ∨ w = 4 ∨ w = 8) (he : e.length = w) :
    write h (.fundamental w) writer e = writer ++ toLE w (load h e) := by
  show write_wrapper h w writer e = _
  rw [write_wrapper_wire h w writer e hw he, toLE_load h w e he]
  cases hl : h.little
  · by_cases h1 : w = 1
    · subst h1
      match e, he with
      | [b], _ => simp [is_little_endian_copyable, hl]
    · simp [is_little_endian_copyable, hl, h1]
  · simp [is_little_endian_copyable, hl]

theorem length_flatten_uniform (w : Nat) (a : List (List Byte))
    (ha : ∀ e ∈ a, e.length = w) : a.flatten.length = a.length * w := by
  induction a with
  | nil => simp
  | cons x xs ih =>
    have hx : x.length = w := ha x (by simp)
    have := ih (fun e he => ha e (by simp [he]))
    simp [hx, this, Nat.add_mul, Nat.add_comm]

theorem foldl_write_fundamental (h : Host) (w : Nat) (a : List (List Byte))
    (writer : List Byte) (hw : w = 1 ∨ w = 2 ∨ w = 4 ∨ w = 8)
    (ha : ∀ e ∈ a, e.length = w) :
    List.foldl (fun wr x => write h (.fundamental w) wr x) writer a
      = writer ++ (a.map fun e => toLE w (load h e)).flatten := by
  induction a generalizing writer with
  | nil => simp
  | cons x xs ih =>
    have hx : x.length = w := ha x (by simp)
    simp only [List.foldl_cons, List.map_cons, List.flatten_cons]
    rw [ih _ (fun e he => ha e (by simp [he])), write_fundamental_wire h w writer x hw hx]
    simp

theorem storage_fundamental (h : Host) (w : Nat) (a : List (List Byte)) :
    storage h (.fundamental w) a = a.flatten := by
  have : (object_rep h (.fundamental w) : List Byte → List Byte) = id := by
    funext x; rfl
  simp [storage, this]

theorem read_each_fundamental (h : Host) (w : Nat) (a t : List (List Byte))
    (tail : List Byte) (chk : Bool) (hw : w = 1 ∨ w = 2 ∨ w = 4 ∨ w = 8)
    (ha : ∀ e ∈ a, e.length = w) (ht : ∀ e ∈ t, e.length = w) (hl : t.length = a.length) :
    read_each (fun r x => read h (.fundamental w) r x)
        ⟨(a.map fun e => toLE w (load h e)).flatten ++ tail, chk⟩ t
      = (errc.ok, ⟨tail, chk⟩, a) := by
  induction a generalizing t with
  | nil =>
    match t, hl with
    | [], _ => simp [read_each]
  | cons x xs ih =>
    match t, hl with
    | y :: ys, hl =>
      have hx : x.length = w := ha x (by simp)
      have hy : y.length = w := ht y (by simp)
      have hlen : (toLE w (load h x)).length = w := length_toLE _ _
      have hr := read_fundamental_wire h w (toLE w (load h x))
        ((xs.map fun e => toLE w (load h e)).flatten ++ tail) y chk hw hlen hy
      have hback : (if is_little_endian_copyable h w then toLE w (load h x)
          else (toLE w (load h x)).reverse) = x := by
        rw [toLE_load h w x hx]
        cases hl : h.little
        · by_cases h1 : w = 1
          · subst h1
            match x, hx with
            | [b], _ => simp [is_little_endian_copyable, hl]
          · simp [is_little_endian_copyable, hl, h1]
        · simp [is_little_endian_copyable, hl]
      have ih2 := ih ys (fun e he => ha e (by simp [he])) (fun e he => ht e (by simp [he]))
        (by simpa using hl)
      simp only [read_each, List.map_cons, List.flatten_cons, List.append_assoc]
      simp only [read] at hr ih2 ⊢
      rw [hr, hback]
      simp [ih2]

theorem map_wire_little (h : Host) (w : Nat) (a : List (List Byte)) (hl : h.little = true)
    (ha : ∀ e ∈ a, e.length = w) : (a.map fun e => toLE w (load h e)) = a := by
  have : ∀ e ∈ a, (fun e => toLE w (load h e)) e = id e := by
    intro e he
    simp [toLE_load h w e (ha e he), hl]
  rw [List.map_congr_left this, List.map_id]

theorem length_wire (h : Host) (w : Nat) (a : List (List Byte)) :
    ((a.map fun e => toLE w (load h e)).flatten).length = w * a.length := by
  rw [length_flatten_uniform w _ (by
    intro e he
    obtain ⟨x, _, rfl⟩ := List.mem_map.mp he
    exact length_toLE _ _)]
  simp [Nat.mul_comm]

/-! ## Strings -/

theorem write_string_size_t_64 (h : Host) (s : List (List Byte)) (writer : List Byte)
    (h8 : h.size_t_bytes = 8) (hc : ∀ c ∈ s, c.length = 1) (hn : s.length < PTRDIFF_MAX h) :
    write h Ty.string writer s = writer ++ toLE 8 s.length ++ s.flatten := by
  have hp : PTRDIFF_MAX h = 2 ^ 63 - 1 := by simp [PTRDIFF_MAX, h8]
  have hlen : to_uint64 s.length = s.length := by
    unfold to_uint64; apply Nat.mod_eq_of_lt; omega
  have hsz : to_size_t h (to_uint64 (s.length * 1)) = s.length := by
    simp only [Nat.mul_one, hlen]
    unfold to_size_t; rw [h8]; apply Nat.mod_eq_of_lt; omega
  have hflat : s.flatten.length = s.length := by
    rw [length_flatten_uniform 1 s hc]; simp
  have hpre : write_wrapper h 8 writer (store h 8 s.length) = writer ++ toLE 8 s.length := by
    rw [write_wrapper_wire h 8 writer _ (by decide) (length_store h 8 _),
      wire_of_store h 8 _ (by decide)]
  have hlt : ¬ (s.length ≥ PTRDIFF_MAX h) := by omega
  simp only [Ty.string, write, hlen, h8, hpre, sizeof, is_little_endian_copyable,
    beq_self_eq_true, Bool.or_true, Bool.and_self, if_true, writer_bytes_array,
    write_bytes_array, hsz, hlt, if_false, storage_fundamental]
  rw [mem_read_all h s.flatten s.length hflat]

/-! ## Evaluations at concrete inputs -/

/-- C3: on a host whose `size_t` is 4 bytes wide, `write` of the string
`"hello"` appends 9 bytes, not 8 + 5: the length goes out through
`write_wrapper<sizeof(std::size_t)>`, so the count is 4 bytes long (and on the
big-endian host it is the high half of the 64-bit length, zero), while
`get_write_size` answers 13. -/
theorem write_string_hello_size_t_32 :
    write host_le32 Ty.string [] hello = [5, 0, 0, 0, 104, 101, 108, 108, 111] ∧
    write host_be32 Ty.string [] hello = [0, 0, 0, 0, 104, 101, 108, 108, 111] ∧
    get_write_size host_le32 Ty.string hello = some 13 ∧
    write host_le64 Ty.string [] hello
      = [5, 0, 0, 0, 0, 0, 0, 0, 104, 101, 108, 108, 111] := by
  decide

/-- C4: on a big-endian host `get_write_size` of a 16-byte fundamental value
is 16, while `write` appends 32 bytes to the sink: each of the two
`writer.write` calls of the 16-byte branch of `write_wrapper` is given the
length 16. -/
theorem write_16_big_endian_size (h : Host) (writer : List Byte) (data : Val (.fundamental 16))
    (hl : h.little = false) :
    get_write_size h (.fundamental 16) data = some 16 ∧
    (write h (.fundamental 16) writer data).length = writer.length + 32 := by
  constructor
  · rfl
  · simp [write, write_wrapper, hl, length_mem_read]

/-- Witness of C4: the value `v16` on the big-endian host. -/
theorem write_16_big_endian_size_witness :
    get_write_size host_be64 (.fundamental 16) v16 = some 16 ∧
    (write host_be64 (.fundamental 16) [] v16).length = ([] : List Byte).length + 32 :=
  write_16_big_endian_size host_be64 [] v16 rfl

/-- C6: on the little-endian host `write` of the vector of strings `{"a"}`
takes the bulk path (a vector is continuous and no test of the element type
guards the path): after the count come the 32 bytes of the string handle, so
the output is 40 bytes long, not the 17 bytes of the element-wise encoding,
which is what the big-endian host produces; reading the 40 bytes back does not
give the vector. -/
theorem write_vector_of_strings_bulk :
    write host_le64 (.container true Ty.string) [] vec_a
      = [1, 0, 0, 0, 0, 0, 0, 0] ++ List.replicate 32 (0 : Byte) ∧
    write host_be64 (.container true Ty.string) [] vec_a
      = [1, 0, 0, 0, 0, 0, 0, 0, 1, 0, 0, 0, 0, 0, 0, 0, 97] ∧
    (read host_le64 (.container true Ty.string)
        ⟨write host_le64 (.container true Ty.string) [] vec_a, true⟩ []).2.2 ≠ vec_a := by
  decide

/-! ## Short sources and the bulk writer -/

/-- C16: for every block width (in particular 1, 2, 4, 8 and 16) and either
host byte order, if the source holds fewer than `w` bytes then `read_wrapper`
returns false, `read` of a scalar of that size returns `no_buffer_space`, the
source is left as it was and the bytes of `out` are what they were. -/
theorem read_wrapper_insufficient (h : Host) (w : Nat) (r : Reader) (out : List Byte)
    (hs : r.rest.length < w) :
    read_wrapper h w r out = (false, r, out) ∧
    read h (.fundamental w) r out = (errc.no_buffer_space, r, out) := by
  have hr : r.read w = none := by
    simp [Reader.read]; omega
  have hw : read_wrapper h w r out = (false, r, out) := by
    unfold read_wrapper
    split <;> simp [hr]
  exact ⟨hw, by simp [read, read_fundamental, hw]⟩

/-- Witness of C16: a 16-byte read on the big-endian host from a source of 15
bytes. -/
theorem read_wrapper_insufficient_witness :
    read_wrapper host_be64 16 ⟨List.replicate 15 (7 : Byte), false⟩ v16
      = (false, ⟨List.replicate 15 (7 : Byte), false⟩, v16) ∧
    read host_be64 (.fundamental 16) ⟨List.replicate 15 (7 : Byte), false⟩ v16
      = (errc.no_buffer_space, ⟨List.replicate 15 (7 : Byte), false⟩, v16) :=
  read_wrapper_insufficient host_be64 16 ⟨List.replicate 15 (7 : Byte), false⟩ v16
    (by decide)

/-- C17: `write_bytes_array` on a byte range `data` of at least `length`
bytes: if `length < PTRDIFF_MAX` the sink receives exactly the first `length`
bytes of `data`, in order and unmodified, whatever the host byte order; if
`length ≥ PTRDIFF_MAX` (the `unreachable()` branch) the sink receives nothing. -/
theorem write_bytes_array_forwards (h : Host) (writer data : List Byte) (length : Nat) :
    (length < PTRDIFF_MAX h → length ≤ data.length →
      write_bytes_array h writer data length = writer ++ data.take length) ∧
    (length ≥ PTRDIFF_MAX h → write_bytes_array h writer data length = writer) := by
  constructor
  · intro hlt hle
    have : ¬ (length ≥ PTRDIFF_MAX h) := by omega
    simp only [write_bytes_array, this, if_false]
    rw [mem_read_of_le h data 0 length (by omega)]
    simp
  · intro hge
    simp [write_bytes_array, hge]

/-- Witness of C17: two of three bytes forwarded on the big-endian 64-bit
host, and a length of `PTRDIFF_MAX` refused on the 32-bit host. -/
theorem write_bytes_array_forwards_witness :
    write_bytes_array host_be64 [9] [1, 2, 3] 2 = [9] ++ ([1, 2, 3] : List Byte).take 2 ∧
    write_bytes_array host_le32 [9] [1, 2, 3] (2 ^ 31 - 1) = [9] :=
  ⟨(write_bytes_array_forwards host_be64 [9] [1, 2, 3] 2).1 (by decide) (by decide),
   (write_bytes_array_forwards host_le32 [9] [1, 2, 3] (2 ^ 31 - 1)).2 (by decide)⟩

/-! ## The 16-byte block on a big-endian host -/

/-- C15: on the big-endian host `write_wrapper<16>` appends 32 bytes for the
16-byte value `v16`, not 16: the reversed host bytes 8..15, the 8 bytes that
follow `tmp2` in memory, the reversed host bytes 0..7 and the 8 bytes that
follow `tmp1`.  On the little-endian host the 16 bytes go out unmodified. -/
theorem write_wrapper_16_big_endian :
    write_wrapper host_be64 16 [] v16
      = [15, 14, 13, 12, 11, 10, 9, 8] ++ (List.range 8).map host_be64.beyond
        ++ [7, 6, 5, 4, 3, 2, 1, 0] ++ (List.range 8).map host_be64.beyond ∧
    (write_wrapper host_be64 16 [] v16).length = 32 ∧
    write_wrapper host_le64 16 [] v16 = v16 := by
  decide

/-- C18: on the big-endian host `read_wrapper<16>` on the wire bytes
`0, 1, .., 15` returns true and consumes 16 bytes, and `out` bytes 8..15 are
the reversed wire bytes 0..7; but `out` bytes 0..7 are not the reversed wire
bytes 8..15: they are the reversed 8 bytes found 128 bytes after the start of
the temporary (`&tmp + 8`), here 112 bytes past its end.  Changing the wire
bytes 8..15 does not change `out`. -/
theorem read_wrapper_16_big_endian :
    read_wrapper host_be64 16 ⟨v16, false⟩ (List.replicate 16 (0 : Byte))
      = (true, ⟨[], false⟩,
          ((List.range 8).map fun i => host_be64.beyond (112 + i)).reverse
            ++ [7, 6, 5, 4, 3, 2, 1, 0]) ∧
    (read_wrapper host_be64 16 ⟨v16, false⟩ (List.replicate 16 (0 : Byte))).2.2
      ≠ List.reverse v16 ∧
    (read_wrapper host_be64 16 ⟨List.take 8 v16 ++ List.replicate 8 (0 : Byte), false⟩
        (List.replicate 16 (0 : Byte))).2.2
      = (read_wrapper host_be64 16 ⟨v16, false⟩ (List.replicate 16 (0 : Byte))).2.2 := by
  decide

/-! ## Low bytes of a wider value -/

theorem toLE_add (a b z : Nat) : toLE (a + b) z = toLE a z ++ toLE b (z / 256 ^ a) := by
  induction a generalizing z with
  | zero => simp [toLE]
  | succ a ih =>
    rw [Nat.add_right_comm]
    simp only [toLE, ih, List.cons_append]
    rw [Nat.div_div_eq_div_mul, pow_succ, Nat.mul_comm]

theorem toLE_split (w S x : Nat) (hw : w ≤ S) :
    toLE S x = toLE w x ++ toLE (S - w) (x / 256 ^ w) := by
  have := toLE_add w (S - w) x
  rwa [Nat.add_sub_cancel' hw] at this

theorem toLE_mod (w x : Nat) : toLE w (x % 256 ^ w) = toLE w x := by
  have h1 := toLE_fromLE (toLE w x)
  rwa [length_toLE, fromLE_toLE] at h1

theorem toLE_one_reverse (x : Nat) : (toLE 1 x).reverse = toLE 1 x := by
  simp [toLE]

theorem mem_read_left (h : Host) (lo hi : List Byte) (n : Nat) (hn : lo.length = n) :
    mem_read h (lo ++ hi) 0 n = lo := by
  rw [mem_read_of_le h _ 0 n (by simp; omega)]
  simp [← hn]

theorem mem_read_right (h : Host) (hi lo : List Byte) (off n : Nat) (ho : hi.length = off)
    (hn : lo.length = n) : mem_read h (hi ++ lo) off n = lo := by
  rw [mem_read_of_le h _ off n (by simp; omega)]
  simp [← ho, ← hn]

/-- The host object of `x` in a type of `S` bytes, split at the low `w` bytes. -/
theorem store_split (h : Host) (w S x : Nat) (hw : w ≤ S) :
    store h S x
      = if h.little then toLE w x ++ toLE (S - w) (x / 256 ^ w)
        else (toLE (S - w) (x / 256 ^ w)).reverse ++ (toLE w x).reverse := by
  unfold store
  rw [toLE_split w S x hw]
  split <;> simp

theorem low_bytes_write_wrapper_wire (h : Host) (w S x : Nat) (writer : List Byte)
    (hw : w = 1 ∨ w = 2 ∨ w = 4) (hS : w ≤ S) :
    low_bytes_write_wrapper h w writer (store h S x) = writer ++ toLE w x := by
  have hlen : (store h S x).length = S := length_store h S x
  cases hl : h.little
  · -- big-endian host
    by_cases hwS : w = S
    · subst hwS
      have hwire := write_wrapper_wire h w writer (store h w x) (by omega) (length_store h w x)
      simp only [low_bytes_write_wrapper, hl, hlen, beq_self_eq_true, if_true,
        Bool.false_eq_true, if_false, hwire]
      by_cases h1 : w = 1
      · subst h1
        simp [is_little_endian_copyable, store, hl, toLE]
      · rw [wire_of_store h w x h1]
    · have hne : (w == S) = false := by simpa using hwS
      have hst := store_split h w S x hS
      simp only [hl, Bool.false_eq_true, if_false] at hst
      have hr := mem_read_right h (toLE (S - w) (x / 256 ^ w)).reverse (toLE w x).reverse
        (S - w) w (by simp [length_toLE]) (by simp [length_toLE])
      rw [← hst] at hr
      rcases hw with hw | hw | hw <;> subst hw
      · simp [low_bytes_write_wrapper, hl, hlen, hne, hr, toLE_one_reverse]
      · have hb := store_bswap_load h 2 (toLE 2 x).reverse (by simp [length_toLE])
        simp [low_bytes_write_wrapper, hl, hlen, hne, hr, bswap16, hb,
          mem_read_all h (toLE 2 x) 2 (length_toLE 2 x)]
      · have hb := store_bswap_load h 4 (toLE 4 x).reverse (by simp [length_toLE])
        simp [low_bytes_write_wrapper, hl, hlen, hne, hr, bswap32, hb,
          mem_read_all h (toLE 4 x) 4 (length_toLE 4 x)]
  · -- little-endian host
    have hst := store_split h w S x hS
    simp only [hl, if_true] at hst
    have hr := mem_read_left h (toLE w x) (toLE (S - w) (x / 256 ^ w)) w (length_toLE w x)
    rw [← hst] at hr
    simp [low_bytes_write_wrapper, hl, hr]

/-- C13: for a width of 1, 2 or 4, a type of `S ≥ width` bytes and a value `x`
of it held in a host object (either byte order), `low_bytes_write_wrapper`
appends exactly `width` bytes, byte `i` of which is `(x / 256 ^ i) mod 256`:
the little-endian bytes of `x mod 2 ^ (8 * width)`, the same on both hosts. -/
theorem low_bytes_write_little_endian (h : Host) (w S x : Nat) (writer : List Byte)
    (hw : w = 1 ∨ w = 2 ∨ w = 4) (hS : w ≤ S) (hx : x < 256 ^ S) :
    load h (store h S x) = x ∧
    low_bytes_write_wrapper h w writer (store h S x) = writer ++ toLE w x ∧
    toLE w x = toLE w (x % 2 ^ (8 * w)) ∧
    (toLE w x).length = w ∧
    ∀ i (hi : i < (toLE w x).length), ((toLE w x).get ⟨i, hi⟩).val = x / 256 ^ i % 256 := by
  refine ⟨load_store h S x hx, low_bytes_write_wrapper_wire h w S x writer hw hS, ?_,
    length_toLE w x, fun i hi => getElem_toLE w x i hi⟩
  have : 2 ^ (8 * w) = 256 ^ w := by
    rw [pow_mul]; norm_num
  rw [this, toLE_mod]

/-- Witness of C13: the low 2 bytes of the 64-bit value `0x0102030405060708`
on the big-endian host. -/
theorem low_bytes_write_little_endian_witness :
    load host_be64 (store host_be64 8 0x0102030405060708) = 0x0102030405060708 ∧
    low_bytes_write_wrapper host_be64 2 [] (store host_be64 8 0x0102030405060708)
      = [] ++ toLE 2 0x0102030405060708 ∧
    toLE 2 0x0102030405060708 = toLE 2 (0x0102030405060708 % 2 ^ (8 * 2)) ∧
    (toLE 2 0x0102030405060708).length = 2 ∧
    ∀ i (hi : i < (toLE 2 0x0102030405060708).length),
      ((toLE 2 0x0102030405060708).get ⟨i, hi⟩).val = 0x0102030405060708 / 256 ^ i % 256 :=
  low_bytes_write_little_endian host_be64 2 8 0x0102030405060708 [] (by decide) (by decide)
    (by decide)

theorem mem_write_left (lo hi bytes : List Byte) (hn : bytes.length = lo.length) :
    mem_write (lo ++ hi) 0 bytes = bytes ++ hi := by
  simp [mem_write, hn]

theorem mem_write_right (hi lo bytes : List Byte) (off : Nat) (ho : hi.length = off)
    (hn : bytes.length = lo.length) : mem_write (hi ++ lo) off bytes = hi ++ bytes := by
  subst ho
  simp [mem_write, hn]

/-- The value that keeps the bytes of `y` above the low `w` and takes the low
`w` bytes of `x`. -/
theorem low_replaced (w x y : Nat) :
    (y - y % 256 ^ w + x % 256 ^ w) % 256 ^ w = x % 256 ^ w ∧
    (y - y % 256 ^ w + x % 256 ^ w) / 256 ^ w = y / 256 ^ w := by
  have hP : 0 < 256 ^ w := by positivity
  have hy : y - y % 256 ^ w = 256 ^ w * (y / 256 ^ w) := by
    have := Nat.div_add_mod y (256 ^ w)
    omega
  rw [hy]
  constructor
  · rw [Nat.mul_add_mod, Nat.mod_mod]
  · rw [Nat.mul_add_div hP, Nat.div_eq_of_lt (Nat.mod_lt _ hP), Nat.add_zero]

theorem toLE_low_replaced (w S x y : Nat) (hS : w ≤ S) :
    toLE S (y - y % 256 ^ w + x % 256 ^ w) = toLE w x ++ toLE (S - w) (y / 256 ^ w) := by
  have hz := low_replaced w x y
  rw [toLE_split w S _ hS, hz.2, ← toLE_mod w (y - y % 256 ^ w + x % 256 ^ w), hz.1, toLE_mod]

theorem low_bytes_read_wrapper_wire (h : Host) (w S x y : Nat) (tail : List Byte)
    (chk : Bool) (hw : w = 1 ∨ w = 2 ∨ w = 4) (hS : w ≤ S) :
    low_bytes_read_wrapper h w ⟨toLE w x ++ tail, chk⟩ (store h S y)
      = (true, ⟨tail, chk⟩, store h S (y - y % 256 ^ w + x % 256 ^ w)) := by
  have hlen : (store h S y).length = S := length_store h S y
  have hrd := Reader.read_append (toLE w x) tail chk w (length_toLE w x)
  have hz := toLE_low_replaced w S x y hS
  have hst := store_split h w S y hS
  cases hl : h.little
  · -- big-endian host
    simp only [hl, Bool.false_eq_true, if_false] at hst
    have htarget : store h S (y - y % 256 ^ w + x % 256 ^ w)
        = (toLE (S - w) (y / 256 ^ w)).reverse ++ (toLE w x).reverse := by
      simp [store, hl, hz]
    by_cases hwS : w = S
    · subst hwS
      have hwire := read_wrapper_wire h w (toLE w x) tail (store h w y) chk (by omega)
        (length_toLE w x) (length_store h w y)
      simp only [low_bytes_read_wrapper, hl, hlen, beq_self_eq_true, if_true,
        Bool.false_eq_true, if_false, hwire, htarget, Nat.sub_self, toLE, List.reverse_nil,
        List.nil_append]
      by_cases h1 : w = 1
      · subst h1
        simp [is_little_endian_copyable, toLE_one_reverse]
      · have : is_little_endian_copyable h w = false := by
          simp [is_little_endian_copyable, hl, h1]
        simp [this]
    · have hne : (w == S) = false := by simpa using hwS
      have hmw := mem_write_right (toLE (S - w) (y / 256 ^ w)).reverse (toLE w y).reverse
        (toLE w x).reverse (S - w) (by simp [length_toLE]) (by simp [length_toLE])
      rw [← hst] at hmw
      rw [htarget]
      rcases hw with hw | hw | hw <;> subst hw
      · have hmw1 : mem_write (store h S y) (S - 1) (toLE 1 x)
            = (toLE (S - 1) (y / 256 ^ 1)).reverse ++ (toLE 1 x).reverse := by
          rw [← hmw, toLE_one_reverse]
        simp [low_bytes_read_wrapper, hl, hlen, hne, hrd, hmw1]
      · have hb := store_bswap_load h 2 (toLE 2 x) (length_toLE 2 x)
        simp [low_bytes_read_wrapper, hl, hlen, hne, hrd, bswap16,
          mem_read_all h (toLE 2 x) 2 (length_toLE 2 x), hb, hmw]
      · have hb := store_bswap_load h 4 (toLE 4 x) (length_toLE 4 x)
        simp [low_bytes_read_wrapper, hl, hlen, hne, hrd, bswap32,
          mem_read_all h (toLE 4 x) 4 (length_toLE 4 x), hb, hmw]
  · -- little-endian host
    simp only [hl, if_true] at hst
    have htarget : store h S (y - y % 256 ^ w + x % 256 ^ w)
        = toLE w x ++ toLE (S - w) (y / 256 ^ w) := by
      simp [store, hl, hz]
    have hmw := mem_write_left (toLE w y) (toLE (S - w) (y / 256 ^ w)) (toLE w x)
      (by simp [length_toLE])
    rw [← hst] at hmw
    simp [low_bytes_read_wrapper, hl, hrd, hmw, htarget]

theorem low_replaced_lt (w S x y : Nat) (hS : w ≤ S) (hy : y < 256 ^ S) :
    y - y % 256 ^ w + x % 256 ^ w < 256 ^ S := by
  have hP : 0 < 256 ^ w := by positivity
  have hpow : 256 ^ S = 256 ^ w * 256 ^ (S - w) := by
    rw [← pow_add, Nat.add_sub_cancel' hS]
  have hq : y / 256 ^ w < 256 ^ (S - w) := by
    apply Nat.div_lt_of_lt_mul
    rwa [← hpow]
  have hy2 : y - y % 256 ^ w = 256 ^ w * (y / 256 ^ w) := by
    have := Nat.div_add_mod y (256 ^ w)
    omega
  have hx : x % 256 ^ w < 256 ^ w := Nat.mod_lt _ hP
  rw [hy2, hpow]
  calc 256 ^ w * (y / 256 ^ w) + x % 256 ^ w
      < 256 ^ w * (y / 256 ^ w) + 256 ^ w := by omega
    _ = 256 ^ w * (y / 256 ^ w + 1) := by ring
    _ ≤ 256 ^ w * 256 ^ (S - w) := Nat.mul_le_mul_left _ hq

/-- C14: for a width of 1, 2 or 4, a type of `S ≥ width` bytes, a value `x`
and a destination object holding `y` (either host byte order),
`low_bytes_read_wrapper` run on the bytes `low_bytes_write_wrapper` appended
for `x` returns true, consumes exactly those `width` bytes and leaves the
destination holding `y - (y mod 2 ^ (8 * width)) + (x mod 2 ^ (8 * width))`:
the low `width` bytes are those of `x`, the higher bytes of `y` are unchanged. -/
theorem low_bytes_read_write (h : Host) (w S x y : Nat) (tail : List Byte) (chk : Bool)
    (hw : w = 1 ∨ w = 2 ∨ w = 4) (hS : w ≤ S) (hx : x < 256 ^ S) (hy : y < 256 ^ S) :
    load h (store h S x) = x ∧ load h (store h S y) = y ∧
    (low_bytes_write_wrapper h w [] (store h S x)).length = w ∧
    low_bytes_read_wrapper h w
        ⟨low_bytes_write_wrapper h w [] (store h S x) ++ tail, chk⟩ (store h S y)
      = (true, ⟨tail, chk⟩, store h S (y - y % 2 ^ (8 * w) + x % 2 ^ (8 * w))) ∧
    load h (store h S (y - y % 2 ^ (8 * w) + x % 2 ^ (8 * w)))
      = y - y % 2 ^ (8 * w) + x % 2 ^ (8 * w) ∧
    (y - y % 2 ^ (8 * w) + x % 2 ^ (8 * w)) / 2 ^ (8 * w) = y / 2 ^ (8 * w) := by
  have hp : 2 ^ (8 * w) = 256 ^ w := by
    rw [pow_mul]; norm_num
  rw [hp, low_bytes_write_wrapper_wire h w S x [] hw hS]
  refine ⟨load_store h S x hx, load_store h S y hy, by simp [length_toLE], ?_,
    load_store h S _ (low_replaced_lt w S x y hS hy), (low_replaced w x y).2⟩
  simpa using low_bytes_read_wrapper_wire h w S x y tail chk hw hS

/-- Witness of C14: the low 2 bytes of `0x01020304` read into a 32-bit
destination holding `0xAABBCCDD` on the big-endian host. -/
theorem low_bytes_read_write_witness :
    load host_be64 (store host_be64 4 0x01020304) = 0x01020304 ∧
    load host_be64 (store host_be64 4 0xAABBCCDD) = 0xAABBCCDD ∧
    (low_bytes_write_wrapper host_be64 2 [] (store host_be64 4 0x01020304)).length = 2 ∧
    low_bytes_read_wrapper host_be64 2
        ⟨low_bytes_write_wrapper host_be64 2 [] (store host_be64 4 0x01020304) ++ [7], true⟩
        (store host_be64 4 0xAABBCCDD)
      = (true, ⟨[7], true⟩,
          store host_be64 4 (0xAABBCCDD - 0xAABBCCDD % 2 ^ (8 * 2) + 0x01020304 % 2 ^ (8 * 2))) ∧
    load host_be64
        (store host_be64 4 (0xAABBCCDD - 0xAABBCCDD % 2 ^ (8 * 2) + 0x01020304 % 2 ^ (8 * 2)))
      = 0xAABBCCDD - 0xAABBCCDD % 2 ^ (8 * 2) + 0x01020304 % 2 ^ (8 * 2) ∧
    (0xAABBCCDD - 0xAABBCCDD % 2 ^ (8 * 2) + 0x01020304 % 2 ^ (8 * 2)) / 2 ^ (8 * 2)
      = 0xAABBCCDD / 2 ^ (8 * 2) :=
  low_bytes_read_write host_be64 2 4 0x01020304 0xAABBCCDD [7] true (by decide) (by decide)
    (by decide) (by decide)

/-! ## Pointer overload of `write` -/

/-- The objects `t[0] .. t[n-1]` of a buffer. -/
theorem flatten_chunks (size n : Nat) (t : List Byte) :
    ((List.range n).map fun i => (t.drop (i * size)).take size).flatten
      = t.take (n * size) := by
  induction n with
  | zero => simp
  | succ n ih =>
    rw [List.range_succ, List.map_append, List.flatten_append, ih, Nat.succ_mul,
      List.take_add]
    simp

theorem length_chunk (size n i : Nat) (t : List Byte) (ht : t.length = size * n)
    (hi : i < n) : ((t.drop (i * size)).take size).length = size := by
  have : (i + 1) * size ≤ n * size := Nat.mul_le_mul_right _ hi
  have h2 : size * n = n * size := Nat.mul_comm _ _
  simp only [List.length_take, List.length_drop, ht]
  have : i * size + size ≤ n * size := by
    rw [← Nat.succ_mul]; exact this
  omega

theorem wire_flatten_copyable (h : Host) (w : Nat) (a : List (List Byte))
    (hc : is_little_endian_copyable h w = true) (ha : ∀ e ∈ a, e.length = w) :
    (a.map fun e => toLE w (load h e)).flatten = a.flatten := by
  cases hl : h.little
  · have h1 : w = 1 := by
      simpa [is_little_endian_copyable, hl] using hc
    subst h1
    congr 1
    have : ∀ e ∈ a, (fun e => toLE 1 (load h e)) e = id e := by
      intro e he
      have := ha e he
      match e, this with
      | [b], _ => simp [toLE_load h 1 [b] rfl]
    rw [List.map_congr_left this, List.map_id]
  · rw [map_wire_little h w a hl ha]

theorem write_elementwise_wire (h : Host) (size n : Nat) (writer t : List Byte)
    (hs : size = 1 ∨ size = 2 ∨ size = 4 ∨ size = 8) (ht : t.length = size * n) :
    write_elementwise h size writer t n
      = writer ++ (((List.range n).map fun i => (t.drop (i * size)).take size).map
          fun e => toLE size (load h e)).flatten := by
  have hch : ∀ e ∈ (List.range n).map (fun i => (t.drop (i * size)).take size),
      e.length = size := by
    intro e he
    obtain ⟨i, hi, rfl⟩ := List.mem_map.mp he
    exact length_chunk size n i t ht (List.mem_range.mp hi)
  rw [← foldl_write_fundamental h size _ writer hs hch, List.foldl_map]
  rfl

/-- C19: for a fundamental type of 1, 2, 4 or 8 bytes, a buffer `t` of `n`
objects of it with `sizeof(T) * n < PTRDIFF_MAX`, and either host byte order,
the pointer overload `write(writer, t, n)` appends the very bytes that
`write(writer, t[i])` for `i = 0 .. n - 1` appends (the bulk copy and the
element loop agree), and their number is `get_write_size(t, n) = sizeof(T) * n`. -/
theorem write_ptr_refines_elementwise (h : Host) (size n : Nat) (writer t : List Byte)
    (hs : size = 1 ∨ size = 2 ∨ size = 4 ∨ size = 8) (ht : t.length = size * n)
    (hn : size * n < PTRDIFF_MAX h) :
    write_ptr h size writer t n = write_elementwise h size writer t n ∧
    (write_ptr h size writer t n).length = writer.length + get_write_size_ptr h size n ∧
    get_write_size_ptr h size n = size * n := by
  have hch : ∀ e ∈ (List.range n).map (fun i => (t.drop (i * size)).take size),
      e.length = size := by
    intro e he
    obtain ⟨i, hi, rfl⟩ := List.mem_map.mp he
    exact length_chunk size n i t ht (List.mem_range.mp hi)
  have hpd : PTRDIFF_MAX h < 2 ^ (8 * h.size_t_bytes) := by
    have : 2 ^ (8 * h.size_t_bytes - 1) ≤ 2 ^ (8 * h.size_t_bytes) :=
      Nat.pow_le_pow_right (by decide) (Nat.sub_le _ _)
    have hpos : 0 < 2 ^ (8 * h.size_t_bytes - 1) := by positivity
    unfold PTRDIFF_MAX
    omega
  have hsz : to_size_t h (size * n) = size * n := by
    unfold to_size_t
    exact Nat.mod_eq_of_lt (by omega)
  have hwire := write_elementwise_wire h size n writer t hs ht
  have hlen : (write_elementwise h size writer t n).length = writer.length + size * n := by
    rw [hwire, List.length_append, length_wire]
    simp
  have heq : write_ptr h size writer t n = write_elementwise h size writer t n := by
    cases hc : is_little_endian_copyable h size
    · -- the loop of the overload reads `t[i]` inside the buffer
      simp only [write_ptr, hc, Bool.false_eq_true, if_false, write_elementwise]
      apply List.foldl_ext
      intro w i hi
      have hi2 : i < n := List.mem_range.mp hi
      have hb : i * size + size ≤ t.length := by
        have : (i + 1) * size ≤ n * size := Nat.mul_le_mul_right _ hi2
        rw [ht, Nat.mul_comm size n, ← Nat.succ_mul]
        exact this
      rw [mem_read_of_le h t (i * size) size hb]
    · -- one block
      have hlt : ¬ (size * n ≥ PTRDIFF_MAX h) := by omega
      rw [hwire, wire_flatten_copyable h size _ hc hch, flatten_chunks]
      simp only [write_ptr, hc, if_true, write_bytes_array, hsz, hlt, if_false]
      rw [mem_read_all h t (size * n) ht, List.take_of_length_le (by
        rw [ht, Nat.mul_comm])]
  exact ⟨heq, by rw [heq, hlen, get_write_size_ptr, hsz], by rw [get_write_size_ptr, hsz]⟩

/-- Witness of C19: a buffer of three 16-bit objects on the big-endian host. -/
theorem write_ptr_refines_elementwise_witness :
    write_ptr host_be64 2 [9] [1, 2, 3, 4, 5, 6] 3
      = write_elementwise host_be64 2 [9] [1, 2, 3, 4, 5, 6] 3 ∧
    (write_ptr host_be64 2 [9] [1, 2, 3, 4, 5, 6] 3).length
      = ([9] : List Byte).length + get_write_size_ptr host_be64 2 3 ∧
    get_write_size_ptr host_be64 2 3 = 2 * 3 :=
  write_ptr_refines_elementwise host_be64 2 3 [9] [1, 2, 3, 4, 5, 6] (by decide) rfl
    (by decide)

/-! ## Element-wise path of `read` for a dynamic container -/

theorem read_loop_decodes {α : Type} (rd : Reader → α → errc × Reader × α) (fresh : α)
    (items : List (List Byte × α)) (tail : List Byte) (chk : Bool) (t : List α)
    (hdec : ∀ p ∈ items, ∀ rest, rd ⟨p.1 ++ rest, chk⟩ fresh = (errc.ok, ⟨rest, chk⟩, p.2)) :
    read_loop rd fresh items.length ⟨(items.map Prod.fst).flatten ++ tail, chk⟩ t
      = (errc.ok, ⟨tail, chk⟩, t ++ items.map Prod.snd) := by
  induction items generalizing t with
  | nil => simp [read_loop]
  | cons p ps ih =>
    have hp := hdec p (by simp) ((ps.map Prod.fst).flatten ++ tail)
    have ih2 := ih (t ++ [p.2]) (fun q hq => hdec q (by simp [hq]))
    simp only [List.length_cons, read_loop, List.map_cons, List.flatten_cons,
      List.append_assoc, hp]
    simp [ih2]

theorem read_count (h : Host) (n : Nat) (rest : List Byte) (chk : Bool)
    (hn : n ≤ UINT64_MAX) :
    ∃ bytes, read_fundamental h 8 ⟨toLE 8 n ++ rest, chk⟩ (List.replicate 8 (0 : Byte))
        = (errc.ok, ⟨rest, chk⟩, bytes) ∧ load h bytes = n := by
  refine ⟨_, read_fundamental_wire h 8 (toLE 8 n) rest _ chk (by decide) (length_toLE 8 n)
    (by simp), ?_⟩
  rw [load_wire h 8 _ (by decide), fromLE_toLE]
  apply Nat.mod_eq_of_lt
  unfold UINT64_MAX at hn
  omega

/-- The array branch of `write` and `read` on fundamental elements of width
1, 2, 4 or 8, on either host: both run their element loop. -/
theorem array_fundamental_round_trip (h : Host) (w N : Nat) (a t : List (List Byte))
    (writer tail : List Byte) (chk : Bool) (hw : w = 1 ∨ w = 2 ∨ w = 4 ∨ w = 8)
    (ha : a.length = N) (hae : ∀ e ∈ a, e.length = w)
    (ht : t.length = N) (hte : ∀ e ∈ t, e.length = w) :
    write h (.array (.fundamental w) N) writer a
      = writer ++ (a.map fun e => toLE w (load h e)).flatten ∧
    read h (.array (.fundamental w) N)
        ⟨(a.map fun e => toLE w (load h e)).flatten ++ tail, chk⟩ t
      = (errc.ok, ⟨tail, chk⟩, a) := by
  constructor
  · simp only [write, is_fundamental_v_decltype_elem, Bool.and_false, Bool.false_eq_true,
      if_false]
    exact foldl_write_fundamental h w a writer hw hae
  · simp only [read, is_fundamental_v_decltype_elem, Bool.false_and, Bool.false_eq_true,
      if_false]
    exact read_each_fundamental h w a t tail chk hw hae hte (by omega)

/-- C7: for every `N` and every array `a` of `N` 32-bit integers (each a
4-byte host object), on either host, `write` appends exactly `4 * N` bytes,
element `i` occupying bytes `4i .. 4i+3` as the little-endian bytes of its
value, and `read` of those bytes into any array of `N` 32-bit integers returns
success, consumes just them and leaves the array equal to `a`. -/
theorem array_int32_round_trip (h : Host) (N : Nat) (a t : List (List Byte))
    (writer tail : List Byte) (chk : Bool)
    (ha : a.length = N) (hae : ∀ e ∈ a, e.length = 4)
    (ht : t.length = N) (hte : ∀ e ∈ t, e.length = 4) :
    write h (.array (.fundamental 4) N) writer a
      = writer ++ (a.map fun e => toLE 4 (load h e)).flatten ∧
    ((a.map fun e => toLE 4 (load h e)).flatten).length = 4 * N ∧
    read h (.array (.fundamental 4) N)
        ⟨(a.map fun e => toLE 4 (load h e)).flatten ++ tail, chk⟩ t
      = (errc.ok, ⟨tail, chk⟩, a) := by
  have := array_fundamental_round_trip h 4 N a t writer tail chk (by decide) ha hae ht hte
  exact ⟨this.1, by rw [length_wire, ha], this.2⟩

/-- Witness of C7: the array `{1, 0x01020304}` on the little-endian host. -/
theorem array_int32_round_trip_witness :
    write host_le64 (.array (.fundamental 4) 2) [] [[1, 0, 0, 0], [4, 3, 2, 1]]
      = [] ++ (([[1, 0, 0, 0], [4, 3, 2, 1]] : List (List Byte)).map
          fun e => toLE 4 (load host_le64 e)).flatten ∧
    ((([[1, 0, 0, 0], [4, 3, 2, 1]] : List (List Byte)).map
          fun e => toLE 4 (load host_le64 e)).flatten).length = 4 * 2 ∧
    read host_le64 (.array (.fundamental 4) 2)
        ⟨(([[1, 0, 0, 0], [4, 3, 2, 1]] : List (List Byte)).map
          fun e => toLE 4 (load host_le64 e)).flatten ++ [], true⟩
        [[0, 0, 0, 0], [0, 0, 0, 0]]
      = (errc.ok, ⟨[], true⟩, [[1, 0, 0, 0], [4, 3, 2, 1]]) :=
  array_int32_round_trip host_le64 2 [[1, 0, 0, 0], [4, 3, 2, 1]] [[0, 0, 0, 0], [0, 0, 0, 0]]
    [] [] true rfl (by decide) rfl (by decide)

/-! ## Dynamic containers of scalars: what `read` does with the count -/

/-- C5: the vector of 32-bit integers `{1}` on the little-endian host with a
4-byte `size_t`, decoded from a source with `check` into an empty vector.
`write` makes 8 bytes, a 4-byte count and the element; `read` decodes all 8 as
the count `2 ^ 32 + 1`, finds no byte for the first element and returns
`no_buffer_space`, leaving one value-initialised element.  With an 8-byte
`size_t` the same vector comes back. -/
theorem read_vector_uint32_size_t_32 :
    write host_le32 (.container true (.fundamental 4)) [] vec_one
      = [1, 0, 0, 0, 1, 0, 0, 0] ∧
    read host_le32 (.container true (.fundamental 4))
        ⟨write host_le32 (.container true (.fundamental 4)) [] vec_one, true⟩ []
      = (errc.no_buffer_space, ⟨[], true⟩, [[0, 0, 0, 0]]) ∧
    read host_le64 (.container true (.fundamental 4))
        ⟨write host_le64 (.container true (.fundamental 4)) [] vec_one, true⟩ []
      = (errc.ok, ⟨[], true⟩, vec_one) := by
  decide

/-- C8: the vector of 32-bit integers `{0, 7}` on the big-endian host with a
4-byte `size_t`.  `write` makes 12 bytes: a 4-byte count that is the high half
of the 64-bit length, zero, then the two elements.  `read` of the first 8 of
them decodes the count 0 and returns success with an empty destination; a
source cut inside the first 8 bytes is reported as `no_buffer_space`. -/
theorem read_truncated_returns_success :
    write host_be32 (.container true (.fundamental 4)) [] vec_zero_seven
      = [0, 0, 0, 0, 0, 0, 0, 0, 7, 0, 0, 0] ∧
    read host_be32 (.container true (.fundamental 4))
        ⟨(write host_be32 (.container true (.fundamental 4)) [] vec_zero_seven).take 8, true⟩ []
      = (errc.ok, ⟨[], true⟩, []) ∧
    read host_be32 (.container true (.fundamental 4))
        ⟨(write host_be32 (.container true (.fundamental 4)) [] vec_zero_seven).take 8, false⟩ []
      = (errc.ok, ⟨[], false⟩, []) ∧
    (read host_be32 (.container true (.fundamental 4))
        ⟨(write host_be32 (.container true (.fundamental 4)) [] vec_zero_seven).take 7, true⟩
        []).1 = errc.no_buffer_space := by
  decide

/-- C9: on the little-endian 64-bit host, a vector of 32-bit integers decoded
from a source with `check` whose prefix counts `2 ^ 63` elements
(`sz > UINT64_MAX / 4`): the test of the count is never made, `read` enters
the `emplace_back` loop, appends a value-initialised element to the
destination and returns `no_buffer_space`, not `invalid_buffer`. -/
theorem read_oversized_count :
    fromLE [0, 0, 0, 0, 0, 0, 0, 0x80] > UINT64_MAX / 4 ∧
    read host_le64 (.container true (.fundamental 4))
        ⟨[0, 0, 0, 0, 0, 0, 0, 0x80] ++ [7, 7], true⟩ [[1, 2, 3, 4]]
      = (errc.no_buffer_space, ⟨[7, 7], true⟩, [[1, 2, 3, 4], [0, 0, 0, 0]]) := by
  decide

/-- C10: on the little-endian host with a 32-bit `size_t`, a vector of 16-bit
integers decoded from a source with `check` whose prefix counts `2 ^ 31`
elements, a byte count of `2 ^ 32 > SIZE_MAX`: `read` returns
`no_buffer_space` after appending a value-initialised element, not
`invalid_buffer`; the tests of the count and the computation of `mem_size`
are never reached. -/
theorem read_count_beyond_size_max :
    fromLE [0, 0, 0, 0x80, 0, 0, 0, 0] = 2 ^ 31 ∧
    2 ^ 31 * sizeof host_le32 (.fundamental 2) > SIZE_MAX host_le32 ∧
    read host_le32 (.container true (.fundamental 2)) ⟨[0, 0, 0, 0x80, 0, 0, 0, 0], true⟩ []
      = (errc.no_buffer_space, ⟨[], true⟩, [[0, 0]]) := by
  decide

/-- C11: on the little-endian 64-bit host, a vector of 32-bit integers decoded
from a source with `check` that holds the count 3 and only 5 payload bytes,
into a destination holding one element: `read` returns `no_buffer_space`, but
`check` is never asked: the first element is decoded and a second one
appended before the failure, so the destination has grown by two elements and
4 payload bytes are consumed. -/
theorem read_short_payload_grows_destination :
    read host_le64 (.container true (.fundamental 4))
        ⟨[3, 0, 0, 0, 0, 0, 0, 0] ++ [1, 2, 3, 4, 5], true⟩ [[9, 9, 9, 9]]
      = (errc.no_buffer_space, ⟨[5], true⟩, [[9, 9, 9, 9], [1, 2, 3, 4], [0, 0, 0, 0]]) ∧
    Reader.check ⟨[1, 2, 3, 4, 5], true⟩
      (to_size_t host_le64 (to_uint64 (3 * sizeof host_le64 (.fundamental 4)))) = false := by
  decide

/-! ## The element loops of `read` -/

theorem read_fundamental_not_invalid (h : Host) (w : Nat) (r : Reader) (out : List Byte) :
    (read_fundamental h w r out).1 ≠ errc.invalid_buffer := by
  unfold read_fundamental
  split <;> simp

theorem read_each_not_invalid {α : Type} (rd : Reader → α → errc × Reader × α)
    (hrd : ∀ r x, (rd r x).1 ≠ errc.invalid_buffer) (r : Reader) (xs : List α) :
    (read_each rd r xs).1 ≠ errc.invalid_buffer := by
  induction xs generalizing r with
  | nil => simp [read_each]
  | cons x xs ih =>
    rcases hx : rd r x with ⟨ec, r1, x1⟩
    have h1 := hrd r x
    rw [hx] at h1
    by_cases hec : ec = errc.ok
    · have := ih r1
      rcases hr : read_each rd r1 xs with ⟨ec2, r2, xs1⟩
      rw [hr] at this
      simpa [read_each, hx, hec, hr] using this
    · simpa [read_each, hx, hec] using h1

theorem read_loop_not_invalid {α : Type} (rd : Reader → α → errc × Reader × α) (fresh : α)
    (hrd : ∀ r x, (rd r x).1 ≠ errc.invalid_buffer) (n : Nat) (r : Reader) (t : List α) :
    (read_loop rd fresh n r t).1 ≠ errc.invalid_buffer := by
  induction n generalizing r t with
  | zero => simp [read_loop]
  | succ n ih =>
    rcases hx : rd r fresh with ⟨ec, r1, x1⟩
    have h1 := hrd r fresh
    rw [hx] at h1
    by_cases hec : ec = errc.ok
    · simpa [read_loop, hx, hec] using ih r1 (t ++ [x1])
    · simpa [read_loop, hx, hec] using h1

/-- No type, source and destination make `read` return `invalid_buffer`: the
only statement that returns it sits behind the trait test. -/
theorem read_never_invalid_buffer (h : Host) (T : Ty) (r : Reader) (t : Val T) :
    (read h T r t).1 ≠ errc.invalid_buffer := by
  induction T generalizing r with
  | fundamental size => exact read_fundamental_not_invalid h size r t
  | array e n ih =>
    simp only [read, is_fundamental_v_decltype_elem, Bool.false_and, Bool.false_eq_true,
      if_false]
    exact read_each_not_invalid _ (fun r x => ih r x) r t
  | container c e ih =>
    have h8 := read_fundamental_not_invalid h 8 r (List.replicate 8 (0 : Byte))
    rcases hrd : read_fundamental h 8 r (List.replicate 8 (0 : Byte)) with ⟨ec, r1, bytes⟩
    rw [hrd] at h8
    simp only [read, hrd, is_fundamental_v_decltype_elem, Bool.and_false, Bool.false_and,
      Bool.false_eq_true, if_false]
    by_cases hec : ec = errc.ok
    · simp only [hec, ne_eq, not_true_eq_false, if_false]
      exact read_loop_not_invalid _ _ (fun r x => ih r x) _ _ _
    · simpa [hec] using h8

/-- The `emplace_back` loop against the reference: the destination it was
given, followed by what the element decodes leave behind. -/
theorem read_loop_eq_decode_elements {α : Type} (rd : Reader → α → errc × Reader × α)
    (fresh : α) (n : Nat) (r : Reader) (t : List α) :
    read_loop rd fresh n r t
      = ((decode_elements rd fresh n r).1, (decode_elements rd fresh n r).2.1,
          t ++ (decode_elements rd fresh n r).2.2) := by
  induction n generalizing r t with
  | zero => simp [read_loop, decode_elements]
  | succ n ih =>
    rcases hx : rd r fresh with ⟨ec, r1, x1⟩
    by_cases hec : ec = errc.ok
    · simp [read_loop, decode_elements, hx, hec, ih r1 (t ++ [x1])]
    · simp [read_loop, decode_elements, hx, hec]

/-- The reference on an input of explicit shape: byte strings that decode to
the elements `items`, then a source on which the next decode fails leaving
`xf` in the fresh object: the decoded elements in wire order, then `xf`. -/
theorem decode_elements_then_failure {α : Type} (rd : Reader → α → errc × Reader × α)
    (fresh : α) (items : List (List Byte × α)) (rest : List Byte) (chk : Bool) (n : Nat)
    (ec : errc) (rf : Reader) (xf : α) (hn : items.length < n)
    (hdec : ∀ p ∈ items, ∀ rest, rd ⟨p.1 ++ rest, chk⟩ fresh = (errc.ok, ⟨rest, chk⟩, p.2))
    (hfail : rd ⟨rest, chk⟩ fresh = (ec, rf, xf)) (hec : ec ≠ errc.ok) :
    decode_elements rd fresh n ⟨(items.map Prod.fst).flatten ++ rest, chk⟩
      = (ec, rf, items.map Prod.snd ++ [xf]) := by
  induction items generalizing n with
  | nil =>
    cases n with
    | zero => simp at hn
    | succ n => simp [decode_elements, hfail, hec]
  | cons p ps ih =>
    cases n with
    | zero => simp at hn
    | succ n =>
      have hp := hdec p (by simp) ((ps.map Prod.fst).flatten ++ rest)
      have ih2 := ih n (by simpa using hn) (fun q hq => hdec q (by simp [hq]))
      simp only [decode_elements, List.map_cons, List.flatten_cons, List.append_assoc, hp]
      simp [ih2]

/-! ## Dynamic containers: appended elements -/

/-- The container branch of `read` on a count followed by byte strings that
decode to elements. -/
theorem read_container_items (h : Host) (c : Bool) (e : Ty) (t : List (Val e))
    (items : List (List Byte × Val e)) (tail : List Byte) (chk : Bool)
    (hn : items.length ≤ UINT64_MAX)
    (hdec : ∀ p ∈ items, ∀ rest,
      read h e ⟨p.1 ++ rest, chk⟩ (value_init e) = (errc.ok, ⟨rest, chk⟩, p.2)) :
    read h (.container c e)
        ⟨toLE 8 items.length ++ ((items.map Prod.fst).flatten ++ tail), chk⟩ t
      = (errc.ok, ⟨tail, chk⟩, t ++ items.map Prod.snd) := by
  obtain ⟨bytes, hrd, hld⟩ := read_count h items.length
    ((items.map Prod.fst).flatten ++ tail) chk hn
  have hloop := read_loop_decodes (fun r x => read h e r x) (value_init e) items tail chk t
    hdec
  simp only [read, hrd, hld, is_fundamental_v_decltype_elem, Bool.and_false, Bool.false_and,
    Bool.false_eq_true, if_false]
  simpa using hloop

/-- The reference at the input of the counterexample: the decoded element,
then the value-initialised object of the decode that failed. -/
theorem decode_after_count_example :
    decode_after_count host_le64 (.fundamental 4) ⟨[2, 0, 0, 0, 0, 0, 0, 0, 1, 0, 0, 0], false⟩
      = (errc.no_buffer_space, ⟨[], false⟩, [[1, 0, 0, 0], [0, 0, 0, 0]]) := by
  decide

/-- The container branch of `read` on a count, byte strings that decode to the
elements `items` (fewer than the count), and then a source on which the next
element decode fails leaving `xf` in the fresh object: the destination is the
original one, then the decoded elements, then `xf`. -/
theorem read_container_then_failure (h : Host) (c : Bool) (e : Ty) (t : List (Val e))
    (items : List (List Byte × Val e)) (rest : List Byte) (chk : Bool) (n : Nat)
    (ec : errc) (rf : Reader) (xf : Val e) (hn : items.length < n) (hn2 : n ≤ UINT64_MAX)
    (hdec : ∀ p ∈ items, ∀ rest,
      read h e ⟨p.1 ++ rest, chk⟩ (value_init e) = (errc.ok, ⟨rest, chk⟩, p.2))
    (hfail : read h e ⟨rest, chk⟩ (value_init e) = (ec, rf, xf)) (hec : ec ≠ errc.ok) :
    read h (.container c e) ⟨toLE 8 n ++ ((items.map Prod.fst).flatten ++ rest), chk⟩ t
      = (ec, rf, t ++ items.map Prod.snd ++ [xf]) := by
  obtain ⟨bytes, hrd, hld⟩ := read_count h n ((items.map Prod.fst).flatten ++ rest) chk hn2
  have hd := decode_elements_then_failure (fun r x => read h e r x) (value_init e) items rest
    chk n ec rf xf hn hdec hfail hec
  have hloop := read_loop_eq_decode_elements (fun r x => read h e r x) (value_init e) n
    ⟨(items.map Prod.fst).flatten ++ rest, chk⟩ t
  simp only [read, hrd, hld, is_fundamental_v_decltype_elem, Bool.and_false, Bool.false_and,
    Bool.false_eq_true, if_false]
  simp [hloop, hd]

/-! ## Vectors of scalars with an 8-byte `size_t` -/

theorem write_container_bulk_64 (h : Host) (w : Nat) (v : List (List Byte))
    (writer : List Byte) (h8 : h.size_t_bytes = 8) (hc : is_little_endian_copyable h w = true)
    (hw : w = 1 ∨ w = 2 ∨ w = 4 ∨ w = 8) (hv : ∀ e ∈ v, e.length = w)
    (hn : v.length * w < PTRDIFF_MAX h) :
    write h (.container true (.fundamental w)) writer v
      = writer ++ toLE 8 v.length ++ v.flatten := by
  have hp : PTRDIFF_MAX h = 2 ^ 63 - 1 := by simp [PTRDIFF_MAX, h8]
  have hle : v.length ≤ v.length * w := Nat.le_mul_of_pos_right _ (by omega)
  have hlen : to_uint64 v.length = v.length := by
    unfold to_uint64; apply Nat.mod_eq_of_lt; omega
  have hsz : to_size_t h (to_uint64 (v.length * w)) = v.length * w := by
    have : to_uint64 (v.length * w) = v.length * w := by
      unfold to_uint64; apply Nat.mod_eq_of_lt; omega
    rw [this]
    unfold to_size_t; rw [h8]; apply Nat.mod_eq_of_lt; omega
  have hflat : v.flatten.length = v.length * w := length_flatten_uniform w v hv
  have hpre : write_wrapper h 8 writer (store h 8 v.length) = writer ++ toLE 8 v.length := by
    rw [write_wrapper_wire h 8 writer _ (by decide) (length_store h 8 _),
      wire_of_store h 8 _ (by decide)]
  have hlt : ¬ (v.length * w ≥ PTRDIFF_MAX h) := by omega
  simp only [write, hlen, h8, hpre, sizeof, hc, Bool.and_self, if_true, writer_bytes_array,
    write_bytes_array, hsz, hlt, if_false, storage_fundamental]
  rw [mem_read_all h v.flatten (v.length * w) hflat]

/-- With an 8-byte `size_t` on a little-endian host, a vector of scalars of
width 1, 2, 4 or 8 comes back from the bytes `write` made for it: `read` runs
its `emplace_back` loop over the raw element bytes. -/
theorem vector_round_trip_size_t_64 (h : Host) (w : Nat) (v : List (List Byte))
    (tail : List Byte) (chk : Bool) (h8 : h.size_t_bytes = 8) (hl : h.little = true)
    (hw : w = 1 ∨ w = 2 ∨ w = 4 ∨ w = 8) (hv : ∀ e ∈ v, e.length = w)
    (hn : v.length * w < PTRDIFF_MAX h) :
    read h (.container true (.fundamental w))
        ⟨write h (.container true (.fundamental w)) [] v ++ tail, chk⟩ []
      = (errc.ok, ⟨tail, chk⟩, v) := by
  have hc : is_little_endian_copyable h w = true := by simp [is_little_endian_copyable, hl]
  have hp : PTRDIFF_MAX h = 2 ^ 63 - 1 := by simp [PTRDIFF_MAX, h8]
  have hle : v.length ≤ v.length * w := Nat.le_mul_of_pos_right _ (by omega)
  rw [write_container_bulk_64 h w v [] h8 hc hw hv hn]
  have hitems := read_container_items h true (.fundamental w) []
    (v.map fun x => (x, x)) tail chk (by simp [UINT64_MAX]; omega) (by
      intro p hp rest
      obtain ⟨x, hx, rfl⟩ := List.mem_map.mp hp
      have hwire := read_fundamental_wire h w x rest (value_init (.fundamental w)) chk hw
        (hv x hx) (by simp [value_init])
      simpa [read, hc] using hwire)
  simpa [List.map_map, Function.comp_def] using hitems

end struct_pack
